import Mathlib

/-!
# Verification of the PVS5 OpenCL matrix-multiplication exercise

Shallow embedding of `src/number4/PvSProject/PvSProject/helloWorld.cpp`:
a serial triple-nested-loop matrix multiplication, an OpenCL kernel
`matmult` (given as a source string), and the host-side helpers
(`alloc_mat`, `init_mat`, `init_zero`, `compare_mat`, `ggt`) together
with the error-handling skeleton of `main`.

Floating-point values are modelled by an arbitrary type `F` with
abstract addition and multiplication supplied as parameters: both the
serial loop and the kernel perform their accumulations through these
operations, so proving that the two computations apply the same
operations to the same arguments in the same order establishes
bitwise equality of the IEEE-754 results.

The four host allocations (`A`, `B`, `serialC`, `C`) are disjoint
`calloc` blocks; they are modelled as four consecutive regions of one
flat heap `Nat → F`: `A` at `[0, dim²)`, `B` at `[dim², 2·dim²)`,
`serialC` at `[2·dim², 3·dim²)` and the GPU result `C` at
`[3·dim², 4·dim²)`.
-/

/-- Constant `DATA_SIZE` from the source (`#define DATA_SIZE 1000`); the
kernel's `#define DIM 1000` has the same value. -/
def DATA_SIZE : Nat := 1000

/-- Embedding of `ggt` (lines 126–135): Euclid's algorithm by repeated
remainder, `while (y) { z = x % y; x = y; y = z; } return x;`.  For
non-negative arguments the C `int` arithmetic coincides with `Nat`
arithmetic.  Totality of this well-founded recursion is the termination
claim for the loop. -/
def ggt (x y : Nat) : Nat :=
  if h : y = 0 then x
  else ggt y (x % y)
termination_by y
decreasing_by
  exact Nat.mod_lt _ (Nat.pos_of_ne_zero h)

/-- Embedding of `compare_mat` (lines 115–123): row-major scan returning
`false` at the first pair of entries that are not exactly equal (the
early `return false` is the short-circuiting of `List.all`); entries are
compared with exact equality — no tolerance. -/
def compare_mat {F : Type} [DecidableEq F]
    (A B : Nat → Nat → F) (row col : Nat) : Bool :=
  (List.range row).all fun i =>
    (List.range col).all fun j => decide (A i j = B i j)

/-- The integer stored by `init_mat` (lines 85–89) into flat cell `i`:
`rand() % 10`, where `rand` is modelled as an arbitrary stream of
non-negative integers. -/
def init_mat_entry (rand : Nat → Nat) (i : Nat) : Nat :=
  rand i % 10

/-- A natural number below `2^24` is exactly representable as an
IEEE-754 single-precision float (24 bits of significand), so casting it
to `float` loses nothing. -/
def floatExact (n : Nat) : Prop := n < 2 ^ 24

/-- Embedding of the `init_mat` loop
`for (i = 0; i < row*col; i++) A[0][i] = (float)(rand() % 10);` acting
on the flat data of the matrix; `castF` is the (exact, for small inputs)
`int → float` conversion. -/
def init_mat_run {F : Type} (castF : Nat → F) (rand : Nat → Nat)
    (row col : Nat) (flat : Nat → F) : Nat → F :=
  (List.range (row * col)).foldl
    (fun f idx => Function.update f idx (castF (init_mat_entry rand idx))) flat

/-! ## The `matmult` kernel (KernelSource, lines 14–37)

```c
j = get_global_id(0);
int il = get_local_id(0);
int nl = get_local_size(0);
for (i = 0; i < DIM; i++) {
    for (k = il; k < DIM; k += nl)
        Al[k] = A[i*DIM + k];
    sum = 0.f;
    for (k = 0; k < DIM; k++)
        sum += Al[k] * B[k*DIM + j];
    C[i * DIM + j] = sum;
}
```
-/

/-- Index sequence of the strided staging loop
`for (k = il; k < dim; k += nl)` executed by the worker with local id
equal to the start index `k`.  (The loop never terminates for `nl = 0`;
the guard `0 < nl` reflects that OpenCL guarantees a positive local
size.) -/
def strideLoop (dim nl k : Nat) : List Nat :=
  if h : k < dim ∧ 0 < nl then k :: strideLoop dim nl (k + nl) else []
termination_by dim - k
decreasing_by
  omega

/-- All local-memory indices written during one staging phase by the
whole work-group: worker `il` (for `il = 0, …, nl-1`) contributes its
strided sequence. -/
def allWrites (dim nl : Nat) : List Nat :=
  ((List.range nl).map fun il => strideLoop dim nl il).flatten

/-- Contents of the local buffer `Al` after the work-group's staging
phase for row `i`: every write `Al[k] = A[i*dim + k]` applied to the
initial (uninitialized) local memory `al0`. -/
def stagedAl {F : Type} (A : Nat → F) (dim nl i : Nat)
    (al0 : Nat → F) : Nat → F :=
  (allWrites dim nl).foldl
    (fun al k => Function.update al k (A (i * dim + k))) al0

/-- Contents of the local buffer `Al` in an unsynchronized schedule in
which only the staging writes of the single worker with local id `il`
have executed so far: the source kernel has no barrier after the staging
loop, so nothing forces the other workers' staging writes to precede the
dot-product reads. -/
def stagedAlPartial {F : Type} (A : Nat → F) (dim nl i il : Nat)
    (al0 : Nat → F) : Nat → F :=
  (strideLoop dim nl il).foldl
    (fun al k => Function.update al k (A (i * dim + k))) al0

/-- The dot-product loop of one worker for one output row:
`sum = 0.f; for (k = 0; k < dim; k++) sum += Al[k] * B[k*dim + j];`. -/
def kernelRow {F : Type} (fadd fmul : F → F → F) (z : F)
    (Al B : Nat → F) (dim j : Nat) : F :=
  (List.range dim).foldl
    (fun sum k => fadd sum (fmul (Al k) (B (k * dim + j)))) z

/-- The value a worker stores into `C[i*dim + j]` in the synchronized
reading of the kernel body, i.e. assuming the whole work-group's staging
of row `i` has completed before the worker's dot-product reads of `Al`.
The source kernel contains no barrier enforcing that assumption (see the
trace theorems on `kernelOps`), so this is the kernel's output only for
schedules in which all staging writes happen to land first; compare
`stagedAlPartial` for a schedule in which they have not. -/
def kernelEntry {F : Type} (fadd fmul : F → F → F) (z : F)
    (A B : Nat → F) (al0 : Nat → F) (dim nl i j : Nat) : F :=
  kernelRow fadd fmul z (stagedAl A dim nl i al0) B dim j

/-- The global buffers a kernel instruction can read from. -/
inductive Buf : Type
  | A : Buf
  | B : Buf
deriving DecidableEq

/-- Memory/synchronization operations appearing in the kernel body, in
program order: writes to the work-group local buffer `Al`, writes to the
global output `C`, and work-group barriers. -/
inductive KOp : Type
  | localWrite (dst : Nat) (src : Buf) (addr : Nat) : KOp
  | globalWriteC (addr : Nat) : KOp
  | barrier : KOp
deriving DecidableEq

/-- Tests whether an operation is a work-group barrier. -/
def isBarrier : KOp → Bool
  | KOp.barrier => true
  | _ => false

/-- Tests whether an operation stages data from `B` into local memory. -/
def stagesB : KOp → Bool
  | KOp.localWrite _ src _ => src == Buf.B
  | _ => false

/-- Tests whether an operation is a write to the global output `C`. -/
def isGlobalWrite : KOp → Bool
  | KOp.globalWriteC _ => true
  | _ => false

/-- Tests that a local write stages a cell of the current row of `A`:
source buffer `A`, global address `i*1000 + dst` for some row `i < 1000`
and in-row offset `dst < 1000`. -/
def stagesRowA : KOp → Bool
  | KOp.localWrite dst src addr =>
      src == Buf.A && decide (dst < 1000) && (addr % 1000 == dst)
        && decide (addr / 1000 < 1000)
  | _ => true

/-- Operation trace of one `i`-iteration of the kernel body executed by
the worker with local id `il` and global id (column) `j`: the strided
local writes `Al[k] = A[i*DIM + k]`, then the single global write
`C[i*DIM + j]`.  The source contains no barrier call. -/
def kernelRowOps (dim nl il j i : Nat) : List KOp :=
  ((strideLoop dim nl il).map fun k => KOp.localWrite k Buf.A (i * dim + k))
    ++ [KOp.globalWriteC (i * dim + j)]

/-- Full operation trace of the kernel body for one worker: the `i` loop
over all `dim` output rows. -/
def kernelOps (dim nl il j : Nat) : List KOp :=
  ((List.range dim).map fun i => kernelRowOps dim nl il j i).flatten

/-! ## The serial reference computation and the flat heap

`main` (lines 137–156) allocates `A`, `B`, `serialC` with `alloc_mat`
(each a contiguous `calloc` block) and runs

```c
for (i = 0; i < DATA_SIZE; i++)
    for (j = 0; j < DATA_SIZE; j++)
        for (k = 0; k < DATA_SIZE; k++)
            serialC[i][j] += A[i][k] * B[k][j];
```
-/

/-- Heap address of `A[i][k]` (region `[0, dim²)`). -/
def aAddr (dim i k : Nat) : Nat := i * dim + k

/-- Heap address of `B[k][j]` (region `[dim², 2·dim²)`). -/
def bAddr (dim k j : Nat) : Nat := dim * dim + (k * dim + j)

/-- Heap address of `serialC[i][j]` (region `[2·dim², 3·dim²)`). -/
def cAddr (dim i j : Nat) : Nat := 2 * dim * dim + (i * dim + j)

/-- Heap address of the read-back GPU result `C[0][i*dim + j]` (region
`[3·dim², 4·dim²)`). -/
def gAddr (dim i j : Nat) : Nat := 3 * dim * dim + (i * dim + j)

/-- One execution of the innermost statement
`serialC[i][j] += A[i][k] * B[k][j];` on the flat heap. -/
def serialStep {F : Type} (fadd fmul : F → F → F) (dim i j k : Nat)
    (h : Nat → F) : Nat → F :=
  Function.update h (cAddr dim i j)
    (fadd (h (cAddr dim i j)) (fmul (h (aAddr dim i k)) (h (bAddr dim k j))))

/-- The innermost `k` loop for fixed `i`, `j`. -/
def serialInner {F : Type} (fadd fmul : F → F → F) (dim i j : Nat)
    (h : Nat → F) : Nat → F :=
  (List.range dim).foldl (fun h k => serialStep fadd fmul dim i j k h) h

/-- The middle `j` loop for fixed `i`. -/
def serialMid {F : Type} (fadd fmul : F → F → F) (dim i : Nat)
    (h : Nat → F) : Nat → F :=
  (List.range dim).foldl (fun h j => serialInner fadd fmul dim i j h) h

/-- The full serial triple-nested loop. -/
def serialLoop {F : Type} (fadd fmul : F → F → F) (dim : Nat)
    (h : Nat → F) : Nat → F :=
  (List.range dim).foldl (fun h i => serialMid fadd fmul dim i h) h

/-- The accumulated dot product `h(C_ij) + Σ_k h(A_ik)·h(B_kj)` folded
left over `k` in increasing order, starting from the value the heap
holds at `serialC[i][j]`. -/
def dotVal {F : Type} (fadd fmul : F → F → F) (dim : Nat)
    (h : Nat → F) (i j : Nat) : F :=
  (List.range dim).foldl
    (fun s k => fadd s (fmul (h (aAddr dim i k)) (h (bAddr dim k j))))
    (h (cAddr dim i j))

/-- Initial heap: matrix `A` in its region, matrix `B` in its region,
and the `calloc`-zeroed value `z` everywhere else (in particular in the
`serialC` and `C` regions). -/
def initHeap {F : Type} (dim : Nat) (z : F) (A B : Nat → F) : Nat → F :=
  fun x =>
    if x < dim * dim then A x
    else if x < 2 * dim * dim then B (x - dim * dim)
    else z

/-! ## `alloc_mat` (lines 73–83)

```c
float** alloc_mat(int row, int col) {
    float** A1, *A2;
    A1 = (float**)calloc(row, sizeof(float*));
    A2 = (float*)calloc(row * col, sizeof(float));
    for (int i = 0; i < row; i++) A1[i] = A2 + i * col;
    return A1;
}
```
Pointers are modelled as offsets from the flat block `A2`. -/

/-- The row-pointer loop of `alloc_mat` starting at row index `i`:
offsets of `A1[i], A1[i+1], …, A1[row-1]` from `A2`. -/
def rowPtrsAux (row col i : Nat) : List Nat :=
  if h : i < row then i * col :: rowPtrsAux row col (i + 1) else []
termination_by row - i
decreasing_by
  omega

/-- The complete row-pointer table built by `alloc_mat`. -/
def alloc_rowPtrs (row col : Nat) : List Nat := rowPtrsAux row col 0

/-- The flat data block of `alloc_mat`: `calloc(row*col, sizeof(float))`,
i.e. `row*col` cells all holding the zero value `z`. -/
def alloc_flat {F : Type} (z : F) (row col : Nat) : List F :=
  List.replicate (row * col) z

/-! ## Host-side GPU data movement (lines 276–290) -/

/-- The device copy of `A` taken by
`clEnqueueWriteBuffer(…, Ap, …, A[0], …)`: a read-only snapshot of the
`A` region of the heap. -/
def devA {F : Type} (dim : Nat) (h : Nat → F) : Nat → F :=
  fun k => h k

/-- The device copy of `B` taken by
`clEnqueueWriteBuffer(…, Bp, …, B[0], …)`: a read-only snapshot of the
`B` region of the heap. -/
def devB {F : Type} (dim : Nat) (h : Nat → F) : Nat → F :=
  fun k => h (dim * dim + k)

/-- `clEnqueueReadBuffer(…, Cp, …, C[0], …)`: the device result `devC`
is copied into the host `C` region `[3·dim², 4·dim²)`; no other host
memory is written by the GPU path. -/
def gpuWriteBack {F : Type} (dim : Nat) (devC : Nat → F)
    (h : Nat → F) : Nat → F :=
  (List.range (dim * dim)).foldl
    (fun h idx => Function.update h (3 * dim * dim + idx) (devC idx)) h

/-! ## The error-handling skeleton of `main` (lines 162–315)

Each device-API call site of `main` is a constructor; `mainTrace`
replays the call sequence of `main` (for a system with a single
platform, matching the NVIDIA-or-first-platform selection) against an
oracle `fails` saying which calls return a non-success status, and
records which calls are actually performed: a call whose status is
checked stops the trace when it fails, an unchecked call never does. -/

/-- The device-API call sites of `main`, in program order. -/
inductive CLCall : Type
  | getPlatformIDsCount : CLCall
  | getPlatformIDsFill : CLCall
  | getPlatformInfo : CLCall
  | getDeviceIDs : CLCall
  | getDeviceInfo : CLCall
  | createContext : CLCall
  | createCommandQueue : CLCall
  | createProgramWithSource : CLCall
  | buildProgram : CLCall
  | createKernel : CLCall
  | createBufferA : CLCall
  | createBufferB : CLCall
  | createBufferC : CLCall
  | enqueueWriteA : CLCall
  | enqueueWriteB : CLCall
  | setKernelArg0 : CLCall
  | setKernelArg1 : CLCall
  | setKernelArg2 : CLCall
  | setKernelArg3 : CLCall
  | enqueueNDRangeKernel : CLCall
  | finishQueue : CLCall
  | enqueueReadBuffer : CLCall
  | profilingStart : CLCall
  | profilingEnd : CLCall
  | releaseBufA : CLCall
  | releaseBufB : CLCall
  | releaseBufC : CLCall
  | releaseProgram : CLCall
  | releaseKernel : CLCall
  | releaseQueue : CLCall
  | releaseContext : CLCall
deriving DecidableEq

/-- The sequence of device-API calls `main` performs when call `c`
returns non-success exactly when `fails c`.  The `if` after
`clGetPlatformInfo` tests the stale `err` of the preceding
`clGetPlatformIDs` call (the return value of `clGetPlatformInfo` itself
is discarded by the source), and from `clCreateBuffer` on no status is
ever consulted. -/
def mainTrace (fails : CLCall → Bool) : List CLCall :=
  CLCall.getPlatformIDsCount ::
  if fails CLCall.getPlatformIDsCount then [] else
  CLCall.getPlatformIDsFill ::
  if fails CLCall.getPlatformIDsFill then [] else
  CLCall.getPlatformInfo ::
  if fails CLCall.getPlatformIDsFill then [] else
  CLCall.getDeviceIDs ::
  if fails CLCall.getDeviceIDs then [] else
  CLCall.getDeviceInfo ::
  if fails CLCall.getDeviceInfo then [] else
  CLCall.createContext ::
  if fails CLCall.createContext then [] else
  CLCall.createCommandQueue ::
  if fails CLCall.createCommandQueue then [] else
  CLCall.createProgramWithSource ::
  if fails CLCall.createProgramWithSource then [] else
  CLCall.buildProgram ::
  if fails CLCall.buildProgram then [] else
  CLCall.createKernel ::
  if fails CLCall.createKernel then [] else
  [CLCall.createBufferA, CLCall.createBufferB, CLCall.createBufferC,
   CLCall.enqueueWriteA, CLCall.enqueueWriteB,
   CLCall.setKernelArg0, CLCall.setKernelArg1, CLCall.setKernelArg2,
   CLCall.setKernelArg3,
   CLCall.enqueueNDRangeKernel, CLCall.finishQueue,
   CLCall.enqueueReadBuffer,
   CLCall.profilingStart, CLCall.profilingEnd,
   CLCall.releaseBufA, CLCall.releaseBufB, CLCall.releaseBufC,
   CLCall.releaseProgram, CLCall.releaseKernel, CLCall.releaseQueue,
   CLCall.releaseContext]

/-- Oracle making exactly one call fail. -/
def onlyFail (c0 : CLCall) : CLCall → Bool := fun c => c == c0

/-- The call sites whose status `main` actually checks (each followed by
`if (err != CL_SUCCESS) { printf(…); return 0; }`). -/
def checkedCalls : List CLCall :=
  [CLCall.getPlatformIDsCount, CLCall.getPlatformIDsFill,
   CLCall.getDeviceIDs, CLCall.getDeviceInfo,
   CLCall.createContext, CLCall.createCommandQueue,
   CLCall.createProgramWithSource, CLCall.buildProgram,
   CLCall.createKernel]

/-- The call sites whose status `main` never consults (including
`clGetPlatformInfo`, whose result is discarded). -/
def uncheckedCalls : List CLCall :=
  [CLCall.getPlatformInfo,
   CLCall.createBufferA, CLCall.createBufferB, CLCall.createBufferC,
   CLCall.enqueueWriteA, CLCall.enqueueWriteB,
   CLCall.setKernelArg0, CLCall.setKernelArg1, CLCall.setKernelArg2,
   CLCall.setKernelArg3,
   CLCall.enqueueNDRangeKernel, CLCall.finishQueue,
   CLCall.enqueueReadBuffer,
   CLCall.profilingStart, CLCall.profilingEnd,
   CLCall.releaseBufA, CLCall.releaseBufB, CLCall.releaseBufC,
   CLCall.releaseProgram, CLCall.releaseKernel, CLCall.releaseQueue,
   CLCall.releaseContext]

/-- The error-handling property claimed of `main`: every device-API call
is status-checked, and a non-success status stops the program at that
call (no further device-API work). -/
def EveryCallChecked : Prop :=
  ∀ (fails : CLCall → Bool) (c : CLCall),
    fails c = true → c ∈ mainTrace fails →
      (mainTrace fails).getLast? = some c

/-! # Theorems -/

theorem ggt_eq_gcd (x y : Nat) : ggt x y = Nat.gcd x y := by
  induction y using Nat.strong_induction_on generalizing x with
  | _ y ih =>
    by_cases h : y = 0
    · subst h; rw [ggt]; simp
    · rw [ggt]
      simp only [h, dite_false]
      rw [ih (x % y) (Nat.mod_lt _ (Nat.pos_of_ne_zero h)) y]
      rw [Nat.gcd_comm y (x % y), ← Nat.gcd_rec y x, Nat.gcd_comm y x]

/-- Generic frame lemma: a left fold whose every step preserves the heap
value at `x` preserves it overall. -/
theorem foldl_preserve {F α : Type} (f : (Nat → F) → α → Nat → F)
    (l : List α) (h : Nat → F) (x : Nat)
    (H : ∀ h a, a ∈ l → f h a x = h x) :
    (l.foldl f h) x = h x := by
  induction l generalizing h with
  | nil => rfl
  | cons a t ih =>
    rw [List.foldl_cons, ih (f h a) (fun h b hb => H h b (List.mem_cons_of_mem _ hb))]
    exact H h a (List.mem_cons_self _ _)

/-- Generic evaluation of a fold of pointwise updates whose written
value depends only on the destination index. -/
theorem foldl_update_eval {F : Type} (f : Nat → F) (l : List Nat)
    (al0 : Nat → F) (x : Nat) :
    (l.foldl (fun al k => Function.update al k (f k)) al0) x
      = if x ∈ l then f x else al0 x := by
  induction l generalizing al0 with
  | nil => simp
  | cons a t ih =>
    rw [List.foldl_cons, ih]
    by_cases hx : x ∈ t
    · simp [hx]
    · by_cases hxa : x = a
      · subst hxa; simp [hx, Function.update_same]
      · simp [hx, hxa, Function.update_noteq hxa]

/-- Counting in a flattened family of lists. -/
theorem count_flatten_map {α : Type} [DecidableEq α] (f : Nat → List α)
    (l : List Nat) (a : α) :
    ((l.map f).flatten).count a = (l.map fun i => (f i).count a).sum := by
  induction l with
  | nil => rfl
  | cons b t ih => simp [List.count_append, ih]

/-- Summing an indicator over a duplicate-free list containing its
target gives one. -/
theorem sum_map_single {α : Type} [DecidableEq α] (l : List α) (a : α)
    (hnd : l.Nodup) (ha : a ∈ l) :
    (l.map fun b => if b = a then 1 else 0).sum = 1 := by
  induction l with
  | nil => cases ha
  | cons b t ih =>
    rw [List.map_cons, List.sum_cons]
    by_cases hba : b = a
    · subst hba
      rw [if_pos rfl]
      have hnotin : b ∉ t := (List.nodup_cons.mp hnd).1
      have hz : (t.map fun c => if c = b then 1 else 0).sum = 0 := by
        apply List.sum_eq_zero
        intro x hx
        rcases List.mem_map.mp hx with ⟨c, hc, rfl⟩
        rw [if_neg]
        rintro rfl
        exact hnotin hc
      rw [hz]
    · have hat : a ∈ t := by
        rcases List.mem_cons.mp ha with h1 | h2
        · exact absurd h1.symm hba
        · exact h2
      rw [if_neg hba, ih (List.nodup_cons.mp hnd).2 hat]

/-- Filtering commutes with flattening a mapped family. -/
theorem filter_flatten_map {α : Type} (p : α → Bool) (f : Nat → List α)
    (l : List Nat) :
    ((l.map f).flatten).filter p = (l.map fun i => (f i).filter p).flatten := by
  induction l with
  | nil => rfl
  | cons b t ih => simp [List.filter_append, ih]

/-- Flattening a family of singletons is a map. -/
theorem flatten_map_singleton {α : Type} (g : Nat → α) (l : List Nat) :
    (l.map fun i => [g i]).flatten = l.map g := by
  induction l with
  | nil => rfl
  | cons b t ih => simp [ih]

/-- Characterization of the indices visited by the strided staging loop:
exactly the `x < dim` that lie on the arithmetic progression starting at
`k0` with stride `nl`. -/
theorem mem_strideLoop (dim nl k0 x : Nat) :
    x ∈ strideLoop dim nl k0
      ↔ (x < dim ∧ 0 < nl ∧ k0 ≤ x ∧ nl ∣ (x - k0)) := by
  induction k0 using strideLoop.induct dim nl with
  | case1 k0 h ih =>
    rw [strideLoop, dif_pos h, List.mem_cons, ih]
    constructor
    · rintro (rfl | ⟨h1, h2, h3, h4⟩)
      · exact ⟨h.1, h.2, Nat.le_refl _, by simp⟩
      · refine ⟨h1, h2, by omega, ?_⟩
        have e : x - k0 = (x - (k0 + nl)) + nl := by omega
        rw [e]
        exact Nat.dvd_add h4 (Nat.dvd_refl nl)
    · rintro ⟨h1, h2, h3, h4⟩
      by_cases hxk : x = k0
      · exact Or.inl hxk
      · refine Or.inr ⟨h1, h2, ?_, ?_⟩
        · have : nl ≤ x - k0 := Nat.le_of_dvd (by omega) h4
          omega
        · have : nl ≤ x - k0 := Nat.le_of_dvd (by omega) h4
          rw [show x - (k0 + nl) = (x - k0) - nl from by omega]
          exact Nat.dvd_sub' h4 (Nat.dvd_refl nl)
  | case2 k0 h =>
    rw [strideLoop, dif_neg h]
    simp only [List.not_mem_nil, false_iff]
    rintro ⟨h1, h2, h3, _⟩
    exact h ⟨by omega, h2⟩

/-- The strided staging loop visits no index twice. -/
theorem strideLoop_nodup (dim nl k0 : Nat) : (strideLoop dim nl k0).Nodup := by
  induction k0 using strideLoop.induct dim nl with
  | case1 k0 h ih =>
    rw [strideLoop, dif_pos h]
    refine List.nodup_cons.mpr ⟨fun hmem => ?_, ih⟩
    obtain ⟨_, _, h3, _⟩ := (mem_strideLoop _ _ (k0 + nl) k0).mp hmem
    omega
  | case2 k0 h =>
    rw [strideLoop, dif_neg h]
    exact List.nodup_nil

/-- Exact multiplicity of an index in one worker's staging sequence. -/
theorem count_strideLoop (dim nl k0 x : Nat) :
    (strideLoop dim nl k0).count x
      = if x < dim ∧ 0 < nl ∧ k0 ≤ x ∧ nl ∣ (x - k0) then 1 else 0 := by
  by_cases hm : x ∈ strideLoop dim nl k0
  · rw [List.count_eq_one_of_mem (strideLoop_nodup dim nl k0) hm,
      if_pos ((mem_strideLoop dim nl k0 x).mp hm)]
  · rw [List.count_eq_zero_of_not_mem hm,
      if_neg (fun hc => hm ((mem_strideLoop dim nl k0 x).mpr hc))]

/-- Across the whole work-group, each local index `x < dim` is staged
exactly once: only the worker with local id `x % nl` writes it, and that
worker writes it once. -/
theorem count_allWrites (dim nl x : Nat) (hx : x < dim) (hnl : 0 < nl) :
    (allWrites dim nl).count x = 1 := by
  rw [allWrites, count_flatten_map]
  have key : ∀ il ∈ List.range nl,
      (strideLoop dim nl il).count x = if il = x % nl then 1 else 0 := by
    intro il hil
    rw [List.mem_range] at hil
    rw [count_strideLoop]
    by_cases he : il = x % nl
    · subst he
      rw [if_pos ⟨hx, hnl, Nat.mod_le x nl, Nat.dvd_sub_mod x⟩, if_pos rfl]
    · rw [if_neg, if_neg he]
      rintro ⟨_, _, hle, h4⟩
      apply he
      obtain ⟨c, hc⟩ := h4
      have hx' : x = nl * c + il := by
        have := Nat.eq_add_of_sub_eq hle hc
        omega
      rw [hx', Nat.mul_add_mod, Nat.mod_eq_of_lt hil]
  rw [List.map_congr_left key]
  exact sum_map_single _ _ (List.nodup_range nl) (List.mem_range.mpr (Nat.mod_lt x hnl))

/-- After the staging phase the local buffer holds row `i` of `A`:
`Al[k] = A[i*dim + k]` for every `k < dim`, whatever the initial local
memory contained. -/
theorem stagedAl_eq {F : Type} (A : Nat → F) (dim nl i : Nat)
    (al0 : Nat → F) (k : Nat) (hk : k < dim) (hnl : 0 < nl) :
    stagedAl A dim nl i al0 k = A (i * dim + k) := by
  rw [stagedAl, foldl_update_eval, if_pos]
  rw [allWrites]
  refine List.mem_flatten.mpr
    ⟨strideLoop dim nl (k % nl),
     List.mem_map.mpr ⟨k % nl, List.mem_range.mpr (Nat.mod_lt k hnl), rfl⟩, ?_⟩
  exact (mem_strideLoop dim nl (k % nl) k).mpr
    ⟨hk, hnl, Nat.mod_le k nl, Nat.dvd_sub_mod k⟩

/-- The value a worker stores into `C[i*dim + j]` is the dot product of
row `i` of `A` with column `j` of `B`, accumulated over `k` in
increasing order starting from `0.f`. -/
theorem kernelEntry_eq_dot {F : Type} (fadd fmul : F → F → F) (z : F)
    (A B : Nat → F) (al0 : Nat → F) (dim nl i j : Nat) (hnl : 0 < nl) :
    kernelEntry fadd fmul z A B al0 dim nl i j
      = (List.range dim).foldl
          (fun s k => fadd s (fmul (A (i * dim + k)) (B (k * dim + j)))) z := by
  rw [kernelEntry, kernelRow]
  apply List.foldl_ext
  intro s k hk
  rw [stagedAl_eq A dim nl i al0 k (List.mem_range.mp hk) hnl]

/-- Every operation in the kernel trace is either a staging write of a
cell of the current row of `A`, or the single per-row output write
`C[i*dim + j]`. -/
theorem mem_kernelOps {dim nl il j : Nat} {op : KOp}
    (h : op ∈ kernelOps dim nl il j) :
    (∃ i k, i < dim ∧ k < dim ∧ op = KOp.localWrite k Buf.A (i * dim + k))
    ∨ (∃ i, i < dim ∧ op = KOp.globalWriteC (i * dim + j)) := by
  rw [kernelOps] at h
  rcases List.mem_flatten.mp h with ⟨sub, hsub, hop⟩
  rcases List.mem_map.mp hsub with ⟨i, hi, rfl⟩
  rw [List.mem_range] at hi
  rw [kernelRowOps] at hop
  rcases List.mem_append.mp hop with hl | hr
  · rcases List.mem_map.mp hl with ⟨k, hk, rfl⟩
    have hm := (mem_strideLoop dim nl il k).mp hk
    exact Or.inl ⟨i, k, hi, hm.1, rfl⟩
  · rw [List.mem_singleton] at hr
    exact Or.inr ⟨i, hi, hr⟩

/-- The global writes of one worker are exactly one write per output
row, at `C[i*dim + j]` for `i = 0, …, dim-1`, in row order. -/
theorem kernelOps_global_writes (dim nl il j : Nat) :
    (kernelOps dim nl il j).filter isGlobalWrite
      = (List.range dim).map fun i => KOp.globalWriteC (i * dim + j) := by
  rw [kernelOps, filter_flatten_map]
  have row : ∀ i ∈ List.range dim,
      (kernelRowOps dim nl il j i).filter isGlobalWrite
        = [KOp.globalWriteC (i * dim + j)] := by
    intro i _
    rw [kernelRowOps, List.filter_append]
    have h1 : ((strideLoop dim nl il).map
        fun k => KOp.localWrite k Buf.A (i * dim + k)).filter isGlobalWrite
          = [] := by
      induction strideLoop dim nl il with
      | nil => rfl
      | cons a t ih => simp only [List.map_cons, List.filter_cons, isGlobalWrite,
          ite_false, Bool.false_eq_true, ih]
    rw [h1, List.nil_append]
    rfl
  rw [List.map_congr_left row, flatten_map_singleton]

/-- Bound on `A`-region addresses. -/
theorem aAddr_lt {dim i k : Nat} (hi : i < dim) (hk : k < dim) :
    aAddr dim i k < dim * dim := by
  rw [aAddr]
  have h2 : i * dim + dim = (i + 1) * dim := (Nat.succ_mul i dim).symm
  have h3 : (i + 1) * dim ≤ dim * dim :=
    Nat.mul_le_mul_right dim (Nat.succ_le_of_lt hi)
  omega

/-- An `A`-region read of the inner loop never aliases the accumulator
cell the loop writes (same row `i`, any column `j`). -/
theorem aAddr_ne_cAddr {dim i j k : Nat} (hk : k < dim) :
    aAddr dim i k ≠ cAddr dim i j := by
  rw [aAddr, cAddr]
  have e2 : 2 * dim * dim = dim * dim + dim * dim := by ring
  have hd : dim ≤ dim * dim := Nat.le_mul_of_pos_left dim (by omega)
  omega

/-- A `B`-region read of the inner loop never aliases the accumulator
cell the loop writes (same column `j`, any row `i`). -/
theorem bAddr_ne_cAddr {dim i j k : Nat} (hk : k < dim) :
    bAddr dim k j ≠ cAddr dim i j := by
  rw [bAddr, cAddr]
  have e2 : 2 * dim * dim = dim * dim + dim * dim := by ring
  have h2 : k * dim + dim = (k + 1) * dim := (Nat.succ_mul k dim).symm
  have h3 : (k + 1) * dim ≤ dim * dim :=
    Nat.mul_le_mul_right dim (Nat.succ_le_of_lt hk)
  omega

/-- An `A`-region address (with in-range row) is below the whole
`serialC` region. -/
theorem aAddr_ne_cAddr_any {dim i i' j' k : Nat} (hi : i < dim) (hk : k < dim) :
    aAddr dim i k ≠ cAddr dim i' j' := by
  have h1 := aAddr_lt hi hk
  rw [cAddr]
  have e2 : 2 * dim * dim = dim * dim + dim * dim := by ring
  omega

/-- A `B`-region address (with in-range column) is below the whole
`serialC` region. -/
theorem bAddr_ne_cAddr_any {dim i' j j' k : Nat} (hk : k < dim) (hj : j < dim) :
    bAddr dim k j ≠ cAddr dim i' j' := by
  rw [bAddr, cAddr]
  have h1 := aAddr_lt hk hj
  rw [aAddr] at h1
  have e2 : 2 * dim * dim = dim * dim + dim * dim := by ring
  omega

/-- Distinct columns of `serialC` live at distinct addresses (same
row). -/
theorem cAddr_ne_jslot {dim i j j' : Nat} (hne : j ≠ j') :
    cAddr dim i j ≠ cAddr dim i j' := by
  rw [cAddr, cAddr]
  omega

/-- The row index of a `serialC` cell is determined by its address. -/
theorem cAddr_inj_i {dim i i' j j' : Nat} (hj : j < dim) (hj' : j' < dim)
    (he : cAddr dim i j = cAddr dim i' j') : i = i' := by
  rw [cAddr, cAddr] at he
  have he' : i * dim + j = i' * dim + j' := by omega
  have hd : 0 < dim := by omega
  have h1 : (i * dim + j) / dim = i := by
    rw [Nat.mul_comm i dim, Nat.mul_add_div hd, Nat.div_eq_of_lt hj, Nat.add_zero]
  have h2 : (i' * dim + j') / dim = i' := by
    rw [Nat.mul_comm i' dim, Nat.mul_add_div hd, Nat.div_eq_of_lt hj', Nat.add_zero]
  rw [← h1, ← h2, he']

/-- Addresses below the `serialC` region are distinct from every
`serialC` cell. -/
theorem ne_cAddr_of_lt {dim x i j : Nat} (hx : x < 2 * dim * dim) :
    x ≠ cAddr dim i j := by
  rw [cAddr]
  omega

/-- Evaluation of the inner `k` loop: it performs one update of the
accumulator cell `serialC[i][j]`, storing the dot product accumulated
from the cell's current contents, and touches nothing else. -/
theorem serialInner_aux {F : Type} (fadd fmul : F → F → F) (dim i j : Nat) :
    ∀ (l : List Nat), (∀ k ∈ l, k < dim) → ∀ (h : Nat → F),
      l.foldl (fun h k => serialStep fadd fmul dim i j k h) h
        = Function.update h (cAddr dim i j)
            (l.foldl
              (fun s k => fadd s (fmul (h (aAddr dim i k)) (h (bAddr dim k j))))
              (h (cAddr dim i j))) := by
  intro l
  induction l with
  | nil =>
    intro _ h
    simp [Function.update_eq_self]
  | cons a t ih =>
    intro hb h
    have ha : a < dim := hb a (List.mem_cons_self _ _)
    rw [List.foldl_cons, List.foldl_cons,
      ih (fun k hk => hb k (List.mem_cons_of_mem _ hk))
        (serialStep fadd fmul dim i j a h)]
    rw [show serialStep fadd fmul dim i j a h
          = Function.update h (cAddr dim i j)
              (fadd (h (cAddr dim i j))
                (fmul (h (aAddr dim i a)) (h (bAddr dim a j)))) from rfl]
    rw [Function.update_idem, Function.update_same]
    apply congrArg (Function.update h (cAddr dim i j))
    apply List.foldl_ext
    intro s k hkt
    have hkd : k < dim := hb k (List.mem_cons_of_mem _ hkt)
    rw [Function.update_noteq (aAddr_ne_cAddr hkd),
      Function.update_noteq (bAddr_ne_cAddr hkd)]

/-- The inner loop as a single cell update. -/
theorem serialInner_eval {F : Type} (fadd fmul : F → F → F) (dim i j : Nat)
    (h : Nat → F) :
    serialInner fadd fmul dim i j h
      = Function.update h (cAddr dim i j) (dotVal fadd fmul dim h i j) := by
  rw [serialInner, dotVal]
  exact serialInner_aux fadd fmul dim i j (List.range dim)
    (fun k hk => List.mem_range.mp hk) h

/-- The inner loop leaves every non-accumulator address unchanged. -/
theorem serialInner_frame {F : Type} (fadd fmul : F → F → F) (dim i j : Nat)
    (h : Nat → F) (x : Nat) (hx : x ≠ cAddr dim i j) :
    serialInner fadd fmul dim i j h x = h x := by
  rw [serialInner_eval, Function.update_noteq hx]

/-- The dot product only depends on the heap through the `A` row, the
`B` column and the accumulator cell it reads. -/
theorem dotVal_congr {F : Type} (fadd fmul : F → F → F) (dim : Nat)
    (h1 h2 : Nat → F) (i j : Nat)
    (hA : ∀ k, k < dim → h1 (aAddr dim i k) = h2 (aAddr dim i k))
    (hB : ∀ k, k < dim → h1 (bAddr dim k j) = h2 (bAddr dim k j))
    (hc : h1 (cAddr dim i j) = h2 (cAddr dim i j)) :
    dotVal fadd fmul dim h1 i j = dotVal fadd fmul dim h2 i j := by
  rw [dotVal, dotVal, hc]
  apply List.foldl_ext
  intro s k hk
  rw [hA k (List.mem_range.mp hk), hB k (List.mem_range.mp hk)]

/-- Value of the cell `serialC[i][j]` after the middle `j` loop of row
`i`: the dot product taken over the heap as it was when the loop
started. -/
theorem serialMid_aux {F : Type} (fadd fmul : F → F → F) (dim i j : Nat)
    (hj : j < dim) :
    ∀ (l : List Nat), l.Nodup → j ∈ l → ∀ (h : Nat → F),
      (l.foldl (fun h j' => serialInner fadd fmul dim i j' h) h)
          (cAddr dim i j)
        = dotVal fadd fmul dim h i j := by
  intro l
  induction l with
  | nil =>
    intro _ hjl
    cases hjl
  | cons a t ih =>
    intro hnd hjl h
    rw [List.foldl_cons]
    by_cases haj : a = j
    · subst haj
      have hanotin : a ∉ t := (List.nodup_cons.mp hnd).1
      rw [foldl_preserve]
      · rw [serialInner_eval, Function.update_same]
      · intro h' b hb
        apply serialInner_frame
        apply cAddr_ne_jslot
        rintro rfl
        exact hanotin hb
    · have hjt : j ∈ t := by
        rcases List.mem_cons.mp hjl with h1 | h1
        · exact absurd h1.symm haj
        · exact h1
      rw [ih (List.nodup_cons.mp hnd).2 hjt (serialInner fadd fmul dim i a h)]
      apply dotVal_congr
      · intro k hk
        exact serialInner_frame fadd fmul dim i a h _ (aAddr_ne_cAddr hk)
      · intro k hk
        exact serialInner_frame fadd fmul dim i a h _ (bAddr_ne_cAddr_any hk hj)
      · exact serialInner_frame fadd fmul dim i a h _
          (cAddr_ne_jslot fun he => haj he.symm)

/-- The middle loop of row `i` computes the dot product of each cell of
that row from the heap at loop entry. -/
theorem serialMid_cell {F : Type} (fadd fmul : F → F → F) (dim i j : Nat)
    (hj : j < dim) (h : Nat → F) :
    serialMid fadd fmul dim i h (cAddr dim i j) = dotVal fadd fmul dim h i j := by
  rw [serialMid]
  exact serialMid_aux fadd fmul dim i j hj (List.range dim)
    (List.nodup_range dim) (List.mem_range.mpr hj) h

/-- The middle loop of row `i'` writes only `serialC` cells of row
`i'`. -/
theorem serialMid_frame {F : Type} (fadd fmul : F → F → F) (dim i' : Nat)
    (h : Nat → F) (x : Nat) (hx : ∀ j', j' < dim → x ≠ cAddr dim i' j') :
    serialMid fadd fmul dim i' h x = h x := by
  rw [serialMid]
  apply foldl_preserve
  intro h' b hb
  exact serialInner_frame fadd fmul dim i' b h' x (hx b (List.mem_range.mp hb))

/-- Value of `serialC[i][j]` after the whole triple loop: the dot
product of row `i` of `A` with column `j` of `B` accumulated (in
increasing `k` order) onto the initial contents of the cell. -/
theorem serialLoop_aux {F : Type} (fadd fmul : F → F → F) (dim i j : Nat)
    (hi : i < dim) (hj : j < dim) :
    ∀ (l : List Nat), l.Nodup → i ∈ l → (∀ x ∈ l, x < dim) →
      ∀ (h : Nat → F),
      (l.foldl (fun h i' => serialMid fadd fmul dim i' h) h) (cAddr dim i j)
        = dotVal fadd fmul dim h i j := by
  intro l
  induction l with
  | nil =>
    intro _ hil
    cases hil
  | cons a t ih =>
    intro hnd hil hbd h
    rw [List.foldl_cons]
    by_cases hai : a = i
    · subst hai
      have hanotin : a ∉ t := (List.nodup_cons.mp hnd).1
      rw [foldl_preserve]
      · exact serialMid_cell fadd fmul dim a j hj h
      · intro h' b hb
        apply serialMid_frame
        intro j' hj'
        intro he
        have hba : a = b := cAddr_inj_i hj hj' he
        exact hanotin (hba ▸ hb)
    · have hit : i ∈ t := by
        rcases List.mem_cons.mp hil with h1 | h1
        · exact absurd h1.symm hai
        · exact h1
      rw [ih (List.nodup_cons.mp hnd).2 hit
        (fun x hx => hbd x (List.mem_cons_of_mem _ hx))
        (serialMid fadd fmul dim a h)]
      apply dotVal_congr
      · intro k hk
        apply serialMid_frame
        intro j' hj'
        exact aAddr_ne_cAddr_any hi hk
      · intro k hk
        apply serialMid_frame
        intro j' hj'
        exact bAddr_ne_cAddr_any hk hj
      · apply serialMid_frame
        intro j' hj'
        intro he
        exact hai (cAddr_inj_i hj hj' he).symm

/-- Final value of each `serialC` cell produced by the serial triple
loop. -/
theorem serialLoop_cell {F : Type} (fadd fmul : F → F → F) (dim : Nat)
    (h : Nat → F) (i j : Nat) (hi : i < dim) (hj : j < dim) :
    serialLoop fadd fmul dim h (cAddr dim i j) = dotVal fadd fmul dim h i j := by
  rw [serialLoop]
  exact serialLoop_aux fadd fmul dim i j hi hj (List.range dim)
    (List.nodup_range dim) (List.mem_range.mpr hi)
    (fun x hx => List.mem_range.mp hx) h

/-- The serial loop writes only into the `serialC` region: every address
below `2·dim²` (the `A` and `B` regions) is untouched. -/
theorem serialLoop_frame {F : Type} (fadd fmul : F → F → F) (dim : Nat)
    (h : Nat → F) (x : Nat) (hx : x < 2 * dim * dim) :
    serialLoop fadd fmul dim h x = h x := by
  rw [serialLoop]
  apply foldl_preserve
  intro h' a ha
  apply serialMid_frame
  intro j' hj'
  exact ne_cAddr_of_lt hx

/-- The GPU read-back writes only into the `C` region: every address
below `3·dim²` is untouched. -/
theorem gpuWriteBack_frame {F : Type} (dim : Nat) (devC : Nat → F)
    (h : Nat → F) (x : Nat) (hx : x < 3 * dim * dim) :
    gpuWriteBack dim devC h x = h x := by
  rw [gpuWriteBack]
  apply foldl_preserve
  intro h' a ha
  apply Function.update_noteq
  rw [show (3 : Nat) * dim * dim + a = 3 * dim * dim + a from rfl]
  omega

/-- Reading the initial heap at `serialC[i][j]` yields the `calloc`
zero. -/
theorem initHeap_cAddr {F : Type} (dim : Nat) (z : F) (A B : Nat → F)
    (i j : Nat) :
    initHeap dim z A B (cAddr dim i j) = z := by
  have e2 : 2 * dim * dim = dim * dim + dim * dim := by ring
  simp only [initHeap, cAddr]
  rw [if_neg (by omega), if_neg (by omega)]

/-- The dot product over the initial heap is the textbook accumulation
over the matrices `A` and `B`, started from the `calloc` zero. -/
theorem dotVal_initHeap {F : Type} (fadd fmul : F → F → F) (dim : Nat)
    (z : F) (A B : Nat → F) (i j : Nat) (hi : i < dim) (hj : j < dim) :
    dotVal fadd fmul dim (initHeap dim z A B) i j
      = (List.range dim).foldl
          (fun s k => fadd s (fmul (A (i * dim + k)) (B (k * dim + j)))) z := by
  rw [dotVal, initHeap_cAddr]
  apply List.foldl_ext
  intro s k hk
  have hkd := List.mem_range.mp hk
  have hA : initHeap dim z A B (aAddr dim i k) = A (i * dim + k) := by
    have ha := aAddr_lt hi hkd
    rw [aAddr] at ha
    simp only [initHeap, aAddr]
    rw [if_pos ha]
  have hB : initHeap dim z A B (bAddr dim k j) = B (k * dim + j) := by
    have hb := aAddr_lt hkd hj
    rw [aAddr] at hb
    have e2 : 2 * dim * dim = dim * dim + dim * dim := by ring
    simp only [initHeap, bAddr]
    rw [if_neg (by omega), if_pos (by omega)]
    congr 1
    omega
  rw [hA, hB]

/-- C2: for all inputs, `ggt` terminates (it is a total function defined
by the well-founded recursion of the loop) and returns the greatest
common divisor; consequently the chosen work-group size
`ggt(global[0], local[0])` with `global[0] = DATA_SIZE` divides the
global range `DATA_SIZE` evenly, leaving no remainder workers. -/
theorem ggt_gcd_workgroup_divides (x y : Nat) :
    ggt x y = Nat.gcd x y ∧ ggt DATA_SIZE y ∣ DATA_SIZE :=
  ⟨ggt_eq_gcd x y, by rw [ggt_eq_gcd]; exact Nat.gcd_dvd_left DATA_SIZE y⟩

/-- C5: `compare_mat A B row col` returns `true` exactly when every
entry `A[i][j]` with `i < row`, `j < col` is exactly equal to
`B[i][j]` — equality with no tolerance. -/
theorem compare_mat_iff_pointwise_eq {F : Type} [DecidableEq F]
    (A B : Nat → Nat → F) (row col : Nat) :
    compare_mat A B row col = true
      ↔ ∀ i < row, ∀ j < col, A i j = B i j := by
  simp [compare_mat, List.all_eq_true, List.mem_range]

/-- C7: every cell written by `init_mat` holds the cast of an integer
`n = rand() % 10` with `0 ≤ n ≤ 9`; such a value is far below `2^24` and
hence exactly representable in single-precision float. -/
theorem init_mat_entries_small_exact {F : Type} (castF : Nat → F)
    (rand : Nat → Nat) (row col : Nat) (flat : Nat → F) (idx : Nat)
    (hidx : idx < row * col) :
    init_mat_run castF rand row col flat idx
        = castF (init_mat_entry rand idx)
    ∧ init_mat_entry rand idx ≤ 9
    ∧ floatExact (init_mat_entry rand idx) := by
  refine ⟨?_, ?_, ?_⟩
  · rw [init_mat_run, foldl_update_eval, if_pos (List.mem_range.mpr hidx)]
  · rw [init_mat_entry]
    have := Nat.mod_lt (rand idx) (show 0 < 10 by decide)
    omega
  · rw [floatExact, init_mat_entry]
    have := Nat.mod_lt (rand idx) (show 0 < 10 by decide)
    omega

/-- Witness for C7 at a concrete input. -/
theorem init_mat_entries_small_exact_witness :
    4 < 2 * 3
    ∧ (init_mat_run (fun n => n) (fun _ => 7) 2 3 (fun _ => 0) 4
          = init_mat_entry (fun _ => 7) 4
        ∧ init_mat_entry (fun _ => 7) 4 ≤ 9
        ∧ floatExact (init_mat_entry (fun _ => 7) 4)) :=
  ⟨by decide,
   init_mat_entries_small_exact (fun n => n) (fun _ => 7) 2 3 (fun _ => 0) 4
     (by decide)⟩

/-- C4 counterexample: in the concrete kernel trace of the worker with
local id 0 and column 0 in a work-group of size `DATA_SIZE`, no
operation is a barrier and no local-memory write is sourced from `B`:
the kernel stages no column slice of `B` and contains no barrier
synchronization. -/
theorem matmult_no_barrier_no_B_staging :
    ((kernelOps DATA_SIZE DATA_SIZE 0 0).any fun op =>
        isBarrier op || stagesB op) = false := by
  rw [List.any_eq_false]
  intro op hop
  rcases mem_kernelOps hop with ⟨i, k, _, _, rfl⟩ | ⟨i, _, rfl⟩ <;>
    simp [isBarrier, stagesB]

/-- C4 amended: what every work-group actually stages into local memory
is the current row of `A` (each local write reads `A[i*DIM + dst]` for
the row `i < DIM` being processed and its own destination `dst < DIM`),
never a slice of `B`, and the kernel performs no barrier
synchronization at all. -/
theorem matmult_stages_rowA_unsynchronized (nl il j : Nat) :
    ((kernelOps DATA_SIZE nl il j).all fun op =>
        !(isBarrier op) && !(stagesB op) && stagesRowA op) = true := by
  rw [List.all_eq_true]
  intro op hop
  rcases mem_kernelOps hop with ⟨i, k, hi, hk, rfl⟩ | ⟨i, hi, rfl⟩
  · have hds : DATA_SIZE = 1000 := rfl
    rw [hds] at hi hk
    have h1 : (i * 1000 + k) % 1000 = k := by omega
    have h2 : (i * 1000 + k) / 1000 = i := by omega
    simp [isBarrier, stagesB, stagesRowA, hds, h1, h2, hk, hi]
  · simp [isBarrier, stagesB, stagesRowA]

/-- C6 counterexample: the oracle on which only `clEnqueueWriteBuffer`
for `A` fails refutes the claim that every device-API call of `main` is
checked with immediate exit: the failing call is performed but is not
the last device-API action of the run. -/
theorem main_error_checking_cex : ¬ EveryCallChecked := by
  intro h
  have h2 := h (onlyFail CLCall.enqueueWriteA) CLCall.enqueueWriteA
    (by decide) (by decide)
  exact absurd h2 (by decide)

/-- C6 amended: only the setup calls through `clCreateKernel` are
status-checked — each of them, when it is the sole failing call, is the
last device-API call performed (the program prints a diagnostic and
returns) — while `clGetPlatformInfo` (whose status is discarded; the
following check re-tests the stale status of the preceding call) and
every call from `clCreateBuffer` on are unchecked: their failure leaves
the call sequence identical to the all-success run. -/
theorem main_checked_prefix_unchecked_tail :
    (checkedCalls.all fun c =>
        ((mainTrace (onlyFail c)).getLast? == some c)
          && (mainTrace (onlyFail c)).contains c) = true
    ∧ (uncheckedCalls.all fun c =>
        mainTrace (onlyFail c) == mainTrace fun _ => false) = true :=
  ⟨by decide, by decide⟩

/-- Under the synchronized idealization only — staging of row `i`
completed before the dot-product reads, which is what the design intends
with its barrier and what the barrier-free source kernel does not
enforce — the value computed for `C[i*DIM + j]` is the same fold of
additions and multiplications as the serial loop's `serialC[i][j]`,
hence bitwise equal for IEEE-754 floats, for every choice of the
arithmetic operations, inputs, work-group size and initial local
memory. -/
theorem kernelEntry_matches_serial_synchronized {F : Type}
    (fadd fmul : F → F → F)
    (z : F) (A B : Nat → F) (al0 : Nat → F) (nl i j : Nat)
    (hnl : 0 < nl) (hi : i < DATA_SIZE) (hj : j < DATA_SIZE) :
    kernelEntry fadd fmul z A B al0 DATA_SIZE nl i j
      = serialLoop fadd fmul DATA_SIZE (initHeap DATA_SIZE z A B)
          (cAddr DATA_SIZE i j) := by
  rw [kernelEntry_eq_dot fadd fmul z A B al0 DATA_SIZE nl i j hnl,
    serialLoop_cell fadd fmul DATA_SIZE _ i j hi hj,
    dotVal_initHeap fadd fmul DATA_SIZE z A B i j hi hj]

/-- C1: the code does not guarantee `C = serialC` — the kernel is
missing the synchronization the claim relies on.  With work-group size 2
and all-ones input, in a schedule where only worker 0's staging writes
for row 0 have executed (nothing in the barrier-free kernel forces
worker 1's writes to precede the reads), the local cell `Al[1]` that
worker 0's dot-product loop reads still holds the uninitialized
local-memory value `0`, whereas the completed staging would hold
`A[0*DIM+1] = 1`: an index the dot product reads is racy, so the
kernel's output is not guaranteed to be the serial result. -/
theorem matmult_race_stale_read :
    stagedAlPartial (fun _ => (1 : Nat)) DATA_SIZE 2 0 0 (fun _ => 0) 1 = 0
    ∧ stagedAl (fun _ => (1 : Nat)) DATA_SIZE 2 0 (fun _ => 0) 1 = 1 := by
  constructor
  · have hnm : (1 : Nat) ∉ strideLoop DATA_SIZE 2 0 := by
      intro hm
      have hd := ((mem_strideLoop DATA_SIZE 2 0 1).mp hm).2.2.2
      omega
    rw [stagedAlPartial, foldl_update_eval, if_neg hnm]
  · rw [stagedAl_eq (fun _ => (1 : Nat)) DATA_SIZE 2 0 (fun _ => 0) 1
      (by decide) (by decide)]

/-- C3: for a work-group of any positive size `nl`, the cooperative
strided staging loop covers every local index `k < DIM` exactly once
across the workers; after staging, `Al[k] = A[i*DIM + k]` for all
`k < DIM` regardless of the initial local memory; each worker `j` then
computes, for each row `i`, the dot product over `Al` and the `j`-th
column of `B`, and its global writes are exactly one write of
`C[i*DIM + j]` per row `i`. -/
theorem matmult_staging_coverage {F : Type} (fadd fmul : F → F → F)
    (z : F) (A B : Nat → F) (al0 : Nat → F) (nl il i j k : Nat)
    (hnl : 0 < nl) (hk : k < DATA_SIZE) :
    (allWrites DATA_SIZE nl).count k = 1
    ∧ stagedAl A DATA_SIZE nl i al0 k = A (i * DATA_SIZE + k)
    ∧ kernelEntry fadd fmul z A B al0 DATA_SIZE nl i j
        = (List.range DATA_SIZE).foldl
            (fun s q => fadd s (fmul (A (i * DATA_SIZE + q))
              (B (q * DATA_SIZE + j)))) z
    ∧ (kernelOps DATA_SIZE nl il j).filter isGlobalWrite
        = (List.range DATA_SIZE).map
            fun r => KOp.globalWriteC (r * DATA_SIZE + j) :=
  ⟨count_allWrites DATA_SIZE nl k hk hnl,
   stagedAl_eq A DATA_SIZE nl i al0 k hk hnl,
   kernelEntry_eq_dot fadd fmul z A B al0 DATA_SIZE nl i j hnl,
   kernelOps_global_writes DATA_SIZE nl il j⟩

/-- Witness for C3 at a concrete input. -/
theorem matmult_staging_coverage_witness :
    0 < 3 ∧ 5 < DATA_SIZE
    ∧ ((allWrites DATA_SIZE 3).count 5 = 1
      ∧ stagedAl (fun _ => (1 : Nat)) DATA_SIZE 3 0 (fun _ => 0) 5
          = (fun _ => (1 : Nat)) (0 * DATA_SIZE + 5)
      ∧ kernelEntry Nat.add Nat.mul 0 (fun _ => 1) (fun _ => 1) (fun _ => 0)
          DATA_SIZE 3 0 0
        = (List.range DATA_SIZE).foldl
            (fun s q => Nat.add s (Nat.mul ((fun _ => 1) (0 * DATA_SIZE + q))
              ((fun _ => 1) (q * DATA_SIZE + 0)))) 0
      ∧ (kernelOps DATA_SIZE 3 0 0).filter isGlobalWrite
          = (List.range DATA_SIZE).map
              fun r => KOp.globalWriteC (r * DATA_SIZE + 0)) :=
  ⟨by decide, by decide,
   matmult_staging_coverage Nat.add Nat.mul 0 (fun _ => 1) (fun _ => 1)
     (fun _ => 0) 3 0 0 0 5 (by decide) (by decide)⟩

/-- Offsets of the row pointers set by the `alloc_mat` loop, from the
starting row onwards. -/
theorem rowPtrsAux_get (row col i0 : Nat) :
    ∀ (m : Nat), i0 + m < row →
      (rowPtrsAux row col i0)[m]? = some ((i0 + m) * col) := by
  induction i0 using rowPtrsAux.induct row col with
  | case1 i0 h ih =>
    intro m hm
    rw [rowPtrsAux, dif_pos h]
    cases m with
    | zero => simp
    | succ m' =>
      rw [List.getElem?_cons_succ,
        show i0 + (m' + 1) = (i0 + 1) + m' from by omega]
      exact ih m' (by omega)
  | case2 i0 h =>
    intro m hm
    exact absurd (by omega : i0 < row) h

/-- Length of the row-pointer table. -/
theorem rowPtrsAux_length (row col i0 : Nat) :
    (rowPtrsAux row col i0).length = row - i0 := by
  induction i0 using rowPtrsAux.induct row col with
  | case1 i0 h ih =>
    rw [rowPtrsAux, dif_pos h, List.length_cons, ih]
    omega
  | case2 i0 h =>
    rw [rowPtrsAux, dif_neg h]
    simp
    omega

/-- C9: `alloc_mat` establishes the contiguous row-major layout: the
pointer table has one entry per row and `A1[i] = A2 + i*col`, so
`A[i][j]` is the cell `A[0][i*col + j]`; the flat block is
`calloc`-zeroed; in the flat-heap model the `serialC` cell starts at the
zero value, which is why the serial loop's `+=` accumulation produces
the dot product started from zero without any explicit
initialization. -/
theorem alloc_mat_layout_zero_init {F : Type} (fadd fmul : F → F → F)
    (z : F) (A B : Nat → F) (row col i i' j' : Nat)
    (hi : i < row) (hi' : i' < DATA_SIZE) (hj' : j' < DATA_SIZE) :
    (alloc_rowPtrs row col)[i]? = some (i * col)
    ∧ (alloc_rowPtrs row col).length = row
    ∧ (∀ idx, idx < row * col → (alloc_flat z row col)[idx]? = some z)
    ∧ initHeap DATA_SIZE z A B (cAddr DATA_SIZE i' j') = z
    ∧ serialLoop fadd fmul DATA_SIZE (initHeap DATA_SIZE z A B)
        (cAddr DATA_SIZE i' j')
      = (List.range DATA_SIZE).foldl
          (fun s k => fadd s (fmul (A (i' * DATA_SIZE + k))
            (B (k * DATA_SIZE + j')))) z := by
  refine ⟨?_, ?_, ?_, initHeap_cAddr DATA_SIZE z A B i' j', ?_⟩
  · have := rowPtrsAux_get row col 0 i (by omega)
    rw [Nat.zero_add] at this
    exact this
  · rw [alloc_rowPtrs, rowPtrsAux_length]
    omega
  · intro idx hidx
    rw [alloc_flat, List.getElem?_replicate, if_pos hidx]
  · rw [serialLoop_cell fadd fmul DATA_SIZE _ i' j' hi' hj',
      dotVal_initHeap fadd fmul DATA_SIZE z A B i' j' hi' hj']

/-- Witness for C9 at a concrete input. -/
theorem alloc_mat_layout_zero_init_witness :
    2 < 3 ∧ 0 < DATA_SIZE
    ∧ ((alloc_rowPtrs 3 4)[2]? = some (2 * 4)
      ∧ (alloc_rowPtrs 3 4).length = 3
      ∧ (∀ idx, idx < 3 * 4 → (alloc_flat (0 : Nat) 3 4)[idx]? = some 0)
      ∧ initHeap DATA_SIZE 0 (fun _ => 1) (fun _ => 1)
          (cAddr DATA_SIZE 0 0) = 0
      ∧ serialLoop Nat.add Nat.mul DATA_SIZE
          (initHeap DATA_SIZE 0 (fun _ => 1) (fun _ => 1))
          (cAddr DATA_SIZE 0 0)
        = (List.range DATA_SIZE).foldl
            (fun s k => Nat.add s (Nat.mul ((fun _ => 1) (0 * DATA_SIZE + k))
              ((fun _ => 1) (k * DATA_SIZE + 0)))) 0) :=
  ⟨by decide, by decide,
   alloc_mat_layout_zero_init Nat.add Nat.mul 0 (fun _ => 1) (fun _ => 1)
     3 4 2 0 0 (by decide) (by decide) (by decide)⟩

/-- C10: the input regions are never written: the serial loop leaves
every `A`- and `B`-region address unchanged, the GPU read-back (which
writes only the `C` region) also leaves them unchanged, and the device
buffer snapshots of `A` and `B` taken after the serial loop are
identical to the initial contents — so the serial and GPU computations
operate on identical inputs. -/
theorem inputs_unmodified_frame {F : Type} (fadd fmul : F → F → F)
    (dim : Nat) (h : Nat → F) (devC : Nat → F) (a k : Nat)
    (ha : a < 2 * dim * dim) (hk : k < dim * dim) :
    serialLoop fadd fmul dim h a = h a
    ∧ gpuWriteBack dim devC (serialLoop fadd fmul dim h) a = h a
    ∧ devA dim (serialLoop fadd fmul dim h) k = devA dim h k
    ∧ devB dim (serialLoop fadd fmul dim h) k = devB dim h k := by
  have e2 : 2 * dim * dim = dim * dim + dim * dim := by ring
  have e3 : 3 * dim * dim = 2 * dim * dim + dim * dim := by ring
  refine ⟨serialLoop_frame fadd fmul dim h a ha, ?_, ?_, ?_⟩
  · rw [gpuWriteBack_frame dim devC _ a (by omega)]
    exact serialLoop_frame fadd fmul dim h a ha
  · simp only [devA]
    exact serialLoop_frame fadd fmul dim h k (by omega)
  · simp only [devB]
    exact serialLoop_frame fadd fmul dim h (dim * dim + k) (by omega)

/-- Witness for C10 at a concrete input. -/
theorem inputs_unmodified_frame_witness :
    3 < 2 * 2 * 2 ∧ 1 < 2 * 2
    ∧ (serialLoop Nat.add Nat.mul 2 (fun _ => 5) 3 = (fun _ => (5 : Nat)) 3
      ∧ gpuWriteBack 2 (fun _ => 9) (serialLoop Nat.add Nat.mul 2 (fun _ => 5)) 3
          = (fun _ => (5 : Nat)) 3
      ∧ devA 2 (serialLoop Nat.add Nat.mul 2 (fun _ => 5)) 1
          = devA 2 (fun _ => (5 : Nat)) 1
      ∧ devB 2 (serialLoop Nat.add Nat.mul 2 (fun _ => 5)) 1
          = devB 2 (fun _ => (5 : Nat)) 1) :=
  ⟨by decide, by decide,
   inputs_unmodified_frame Nat.add Nat.mul 2 (fun _ => 5) (fun _ => 9) 3 1
     (by decide) (by decide)⟩
